import Mathlib

/-!
Verification development for the SuttaCentral offline API server.

The JavaScript sources are shallowly embedded: JS objects with string keys
become association lists that preserve insertion order (`getVal`, `setVal`,
`updateVal` mirror property read, property assignment, and in-place field
mutation), parsed JSON documents become the `Json` inductive, the file
system becomes a function `String → Option Json` (the result of the
`readJson` helper of `app.js`: `none` means the file is missing or fails to
parse), and the network becomes functions returning `Option` values (the
result of the `fetchJson` helpers: `none` means any fetch failure).
Paths are modelled relative to the `bilara-data-published` base directory,
with `/` as separator and no trailing slashes, matching every path the
programs construct.
-/

namespace SuttaSpec

/-- Parsed JSON documents, as returned by `JSON.parse`. -/
inductive Json where
  | null
  | bool (b : Bool)
  | num (n : Int)
  | str (s : String)
  | arr (elems : List Json)
  | obj (fields : List (String × Json))

/-- The empty JSON object `{}`, the default facet content in `app.js`. -/
def jsonEmpty : Json := Json.obj []

/-- Property read on a JS object embedded as an insertion-ordered
association list: the value at the first matching key. -/
def getVal {α : Type} : List (String × α) → String → Option α
  | [], _ => none
  | p :: rest, k => if p.1 = k then some p.2 else getVal rest k

/-- Property assignment `o[k] = v` on a JS object: an existing key keeps its
position and gets the new value, a new key is appended last. -/
def setVal {α : Type} : List (String × α) → String → α → List (String × α)
  | [], k, v => [(k, v)]
  | p :: rest, k, v => if p.1 = k then (k, v) :: rest else p :: setVal rest k v

/-- In-place mutation of the value stored at key `k` (other keys and the
insertion order are untouched). -/
def updateVal {α : Type} (m : List (String × α)) (k : String) (g : α → α) :
    List (String × α) :=
  m.map (fun p => if p.1 = k then (p.1, g p.2) else p)

/-- Contiguous-sublist test on character lists. -/
def hasSub (pat : List Char) : List Char → Bool
  | [] => pat.isEmpty
  | c :: rest => pat.isPrefixOf (c :: rest) || hasSub pat rest

/-- JS `String.prototype.includes`: substring containment. -/
def jsIncludes (s pat : String) : Bool := hasSub pat.data s.data

/-- JS `String.prototype.endsWith`. -/
def jsEndsWith (s suf : String) : Bool :=
  suf.data.reverse.isPrefixOf s.data.reverse

/-- Split a character list at the first occurrence of `pat`: the part
before it and the part after it, or `none` when `pat` does not occur. -/
def breakAtSub (pat : List Char) : List Char → Option (List Char × List Char)
  | [] => if pat.isEmpty then some ([], []) else none
  | c :: rest =>
    if pat.isPrefixOf (c :: rest) then some ([], (c :: rest).drop pat.length)
    else
      match breakAtSub pat rest with
      | some (pre, post) => some (c :: pre, post)
      | none => none

/-- JS `String.prototype.replace` with a string pattern: replaces the first
occurrence of `pat` by `repl`, or returns `s` unchanged when `pat` does not
occur (`pat` is a nonempty literal at every call site of the sources). -/
def jsReplaceFirst (s pat repl : String) : String :=
  match breakAtSub pat.data s.data with
  | some (pre, post) => String.mk pre ++ repl ++ String.mk post
  | none => s

/-- JS `String.prototype.split` followed by `[0]`: the part of `s` before
the first occurrence of `pat`, or all of `s` when `pat` does not occur. -/
def jsSplitHead (s pat : String) : String :=
  match breakAtSub pat.data s.data with
  | some (pre, _) => String.mk pre
  | none => s

/-- Join nonempty path segments with `/`. -/
def joinRest : List String → String
  | [] => ""
  | [p] => p
  | p :: rest => p ++ "/" ++ joinRest rest

/-- Node `path.join` restricted to the relative paths the programs build:
empty segments and `"."` segments are dropped, the rest are joined
with `/`. -/
def joinParts (ps : List String) : String :=
  joinRest (ps.filter (fun p => p != "" && p != "."))

/-- Split a character list on a separator character. -/
def splitChar (c : Char) : List Char → List (List Char)
  | [] => [[]]
  | x :: rest =>
    let r := splitChar c rest
    if x == c then [] :: r
    else
      match r with
      | [] => [[x]]
      | h :: t => (x :: h) :: t

/-- Node `path.basename` for separator-joined relative paths without
trailing slashes: the last `/`-separated component. -/
def basename (s : String) : String :=
  String.mk ((splitChar '/' s.data).getLastD s.data)

/-- Node `path.dirname` for separator-joined relative paths without
trailing slashes: all but the last component, `"."` when there is none. -/
def dirname (s : String) : String :=
  match (splitChar '/' s.data).dropLast with
  | [] => "."
  | ps => joinRest (ps.map String.mk)

/-- The regex replacement `uid.replace(/[0-9\.-].*$/, "")` of `app.js`:
keeps the leading characters up to (excluding) the first digit, dot or
hyphen. -/
def stripLocator (s : String) : String :=
  String.mk (s.data.takeWhile (fun c => !(c.isDigit || c == '.' || c == '-')))

/-! ## Index Builder (`scripts/build_index.js`) -/

/-- A file discovered by the recursive directory walk (`walkSync`), given by
its directory components below the walk root and its filename.  The
`fullPath.endsWith` test of the source is equivalent to the same test on the
filename, because the filename is the final path segment and the tested
suffix contains no separator. -/
structure FoundFile where
  dir : List String
  base : String
deriving Repr, DecidableEq

/-- `path.relative(walkRoot, fullPath)` for a walked file. -/
def relPath (f : FoundFile) : String := joinParts (f.dir ++ [f.base])

/-- The root-facet filename convention. -/
def rootSuffix : String := "_root-pli-ms.json"

/-- The translation-facet filename convention. -/
def transTag : String := "_translation-en-"

/-- An entry of the generated `sutta_index.json`. -/
structure SuttaEntry where
  root : Option String
  translations : List (String × String)
deriving Repr, DecidableEq

/-- Identifier extraction for a root file:
`filename.replace("_root-pli-ms.json", "")`. -/
def rootUid (base : String) : String := jsReplaceFirst base rootSuffix ""

/-- Identifier extraction for a translation file:
`filename.split("_translation-en-")[0]`. -/
def transUid (base : String) : String := jsSplitHead base transTag

/-- One step of the root-facet walk of `buildIndex`: a file matching the
root filename convention creates an entry only when the identifier has
none yet (`if (!index[uid])`). -/
def addRootFile (idx : List (String × SuttaEntry)) (f : FoundFile) :
    List (String × SuttaEntry) :=
  if jsEndsWith f.base rootSuffix then
    let uid := rootUid f.base
    match getVal idx uid with
    | some _ => idx
    | none => idx ++ [(uid, { root := some (relPath f), translations := [] })]
  else idx

/-- One step of the translation-facet walk of `buildIndex` inside the
directory of `author`: a file whose name contains `_translation-en-` first
gets a partial entry `{ root: null, translations: {} }` created when the
identifier is absent, then `index[uid].translations[author]` is assigned
the path relative to the author's directory. -/
def addTransFile (author : String) (idx : List (String × SuttaEntry))
    (f : FoundFile) : List (String × SuttaEntry) :=
  if jsIncludes f.base transTag then
    let uid := transUid f.base
    let idx1 :=
      match getVal idx uid with
      | some _ => idx
      | none => idx ++ [(uid, { root := none, translations := [] })]
    updateVal idx1 uid
      (fun e => { e with translations := setVal e.translations author (relPath f) })
  else idx

/-- `buildIndex` of `scripts/build_index.js`: the walk over the root-facet
tree followed by one walk per author directory of the translation-facet
tree.  A missing tree is modelled by an empty file list (that half of the
walk is skipped in the source); non-directory entries of the translation
base directory are skipped by the source, so `authorTrees` lists the
author directories with their walked files. -/
def buildIndex (rootFiles : List FoundFile)
    (authorTrees : List (String × List FoundFile)) :
    List (String × SuttaEntry) :=
  let idx := rootFiles.foldl addRootFile []
  authorTrees.foldl (fun acc p => p.2.foldl (addTransFile p.1) acc) idx

/-- A root file for `uid` was discovered during the walk. -/
def rootDiscovered (rootFiles : List FoundFile) (uid : String) : Prop :=
  ∃ f ∈ rootFiles, jsEndsWith f.base rootSuffix = true ∧ rootUid f.base = uid

/-- A translation file for `uid` was discovered under some author
directory. -/
def transDiscovered (authorTrees : List (String × List FoundFile))
    (uid : String) : Prop :=
  ∃ p ∈ authorTrees, ∃ f ∈ p.2,
    jsIncludes f.base transTag = true ∧ transUid f.base = uid

/-- The first file of the root walk matching the root convention for
`uid`. -/
def firstRootFile (rootFiles : List FoundFile) (uid : String) :
    Option FoundFile :=
  rootFiles.find? (fun f => jsEndsWith f.base rootSuffix && rootUid f.base == uid)

/-! ## Facet Resolver (`GET /api/suttas/:uid` handler of `app.js`) -/

/-- JS truthiness of a nullable string (`null`/`undefined` and `""` are
falsy). -/
def jsTruthy : Option String → Bool
  | some s => s != ""
  | none => false

/-- An entry of the `_publication.json` table.  `content` stands for the
complete JSON object served as `publication_data`; `author_uid` and
`text_uid` are the two fields the handler's match inspects. -/
structure Publication where
  author_uid : String
  text_uid : String
  content : Json

/-- The response object assembled by the `GET /api/suttas/:uid` handler. -/
structure Bundle where
  uid : String
  author_uid : Option String
  author_name : Option String
  available_authors : List String
  root_text : Json
  translation_text : Json
  html_text : Json
  comment_text : Json
  variant_text : Json
  reference_text : Json
  publication_data : Json

/-- Resolution failure: the identifier is absent from the index
(HTTP 404 in the route). -/
inductive ResolveError where
  | notFound
deriving Repr, DecidableEq

/-- The priority chain of steps 2b–2d of the handler, reached when no valid
requested author applies: `sujato`, then `brahmali`, then
`availableAuthors[0]` (`t0` is the first translation pair).  Returns the
selected author together with `translations[selectedAuthor]`. -/
def fallbackSel (ts : List (String × String)) (t0 : String × String) :
    Option String × Option String :=
  let sel :=
    if jsTruthy (getVal ts "sujato") then "sujato"
    else if jsTruthy (getVal ts "brahmali") then "brahmali"
    else t0.1
  (some sel, getVal ts sel)

/-- The translation-selection logic of the handler (step 2): with no
translations nothing is selected; otherwise a truthy requested author with
a truthy `translations[requestedAuthor]` wins, else the fallback chain. -/
def selectAuthorPath (requested : Option String)
    (ts : List (String × String)) : Option String × Option String :=
  match ts with
  | [] => (none, none)
  | t0 :: _ =>
    match requested with
    | some a =>
      if (a != "") && jsTruthy (getVal ts a) then (some a, getVal ts a)
      else fallbackSel ts t0
    | none => fallbackSel ts t0

/-- The root relative path when `suttaEntry.root` is truthy. -/
def rootRel (e : SuttaEntry) : Option String :=
  match e.root with
  | some r => if r != "" then some r else none
  | none => none

/-- Candidate file of the root facet: `root/pli/ms/<root path>`. -/
def rootCandidate (e : SuttaEntry) : Option String :=
  (rootRel e).map (fun r => joinParts ["root/pli/ms", r])

/-- Candidate file of the HTML facet: same directory as the root path,
filename with the `_root-pli-ms.json` suffix replaced by `_html.json`,
under `html/pli/ms`. -/
def htmlCandidate (e : SuttaEntry) : Option String :=
  (rootRel e).map (fun r =>
    joinParts ["html/pli/ms", dirname r,
      jsReplaceFirst (basename r) "_root-pli-ms.json" "_html.json"])

/-- Candidate file of the variant facet: filename with `root-` replaced by
`variant-`, under `variant/pli/ms`. -/
def variantCandidate (e : SuttaEntry) : Option String :=
  (rootRel e).map (fun r =>
    joinParts ["variant/pli/ms", dirname r,
      jsReplaceFirst (basename r) "root-" "variant-"])

/-- Candidate file of the reference facet: filename with the
`_root-pli-ms.json` suffix replaced by `_reference.json`, under
`reference/pli/ms`. -/
def referenceCandidate (e : SuttaEntry) : Option String :=
  (rootRel e).map (fun r =>
    joinParts ["reference/pli/ms", dirname r,
      jsReplaceFirst (basename r) "_root-pli-ms.json" "_reference.json"])

/-- Candidate file of the translation facet, when both the selected author
and the translation path are truthy: `translation/en/<author>/<path>`. -/
def transCandidate (sel rel : Option String) : Option String :=
  match sel, rel with
  | some a, some r =>
    if (a != "") && (r != "") then some (joinParts ["translation/en", a, r])
    else none
  | _, _ => none

/-- Candidate file of the comment facet: same directory as the translation
path, filename with `translation-` replaced by `comment-`, under
`comment/en/<author>`. -/
def commentCandidate (sel rel : Option String) : Option String :=
  match sel, rel with
  | some a, some r =>
    if (a != "") && (r != "") then
      some (joinParts ["comment/en", a, dirname r,
        jsReplaceFirst (basename r) "translation-" "comment-"])
    else none
  | _, _ => none

/-- Load one facet: `readJson(path) || {}`, or `{}` when the facet has no
candidate file. -/
def loadFacet (fileSys : String → Option Json) : Option String → Json
  | some p => (fileSys p).getD jsonEmpty
  | none => jsonEmpty

/-- The publication-metadata heuristic of step 8 of the handler: the first
table entry whose `author_uid` equals the selected author and whose
`text_uid` equals the identifier's collection prefix. -/
def publicationLookup (publicationMeta : List (String × Publication))
    (uid : String) : Option String → Json
  | some a =>
    if a != "" then
      match publicationMeta.find?
          (fun kp => kp.2.author_uid == a && kp.2.text_uid == stripLocator uid) with
      | some kp => kp.2.content
      | none => jsonEmpty
    else jsonEmpty
  | none => jsonEmpty

/-- The bundle assembled by the `GET /api/suttas/:uid` handler for an index
entry that was found: select the translation author, load each facet
best-effort, and run the publication heuristic. -/
def resolveEntry (fileSys : String → Option Json)
    (publicationMeta : List (String × Publication))
    (authorMeta : List (String × String))
    (uid : String) (requested : Option String) (e : SuttaEntry) : Bundle :=
  let sp := selectAuthorPath requested e.translations
  { uid := uid
    author_uid := sp.1
    author_name := sp.1.map (fun a => (getVal authorMeta a).getD a)
    available_authors := e.translations.map Prod.fst
    root_text := loadFacet fileSys (rootCandidate e)
    translation_text := loadFacet fileSys (transCandidate sp.1 sp.2)
    html_text := loadFacet fileSys (htmlCandidate e)
    comment_text := loadFacet fileSys (commentCandidate sp.1 sp.2)
    variant_text := loadFacet fileSys (variantCandidate e)
    reference_text := loadFacet fileSys (referenceCandidate e)
    publication_data := publicationLookup publicationMeta uid sp.1 }

/-- The `GET /api/suttas/:uid` handler of `app.js`: look the identifier up
in the index (404 when absent) and assemble the bundle. -/
def resolveSutta (fileSys : String → Option Json)
    (publicationMeta : List (String × Publication))
    (authorMeta : List (String × String))
    (index : List (String × SuttaEntry))
    (uid : String) (requested : Option String) : Except ResolveError Bundle :=
  match getVal index uid with
  | none => .error .notFound
  | some e => .ok (resolveEntry fileSys publicationMeta authorMeta uid requested e)

/-- Modelled from the spec: the author-selection policy as the claim states
it — the requested author when it is a key of the translations map, else
`sujato` when present among the keys, else `brahmali`, else the first key,
and no author for an empty map.  To be compared with the behaviour of
`selectAuthorPath`. -/
def claimAuthorPolicy (requested : Option String)
    (ts : List (String × String)) : Option String :=
  let keys := ts.map Prod.fst
  let fb :=
    if "sujato" ∈ keys then some "sujato"
    else if "brahmali" ∈ keys then some "brahmali"
    else keys.head?
  match requested with
  | some a => if a ∈ keys then some a else fb
  | none => fb

/-! ## Legacy Backfill (`scripts/fetch_legacy.js`) -/

/-- One translation descriptor of a remote suttaplex document. -/
structure PlexTrans where
  lang : String
  author_uid : String
deriving Repr, DecidableEq

/-- A remote suttaplex document after the array unwrap
(`Array.isArray(d) ? d[0] : d`); `translations` models
`plex.translations || []`. -/
structure Plex where
  translations : List PlexTrans
deriving Repr, DecidableEq

/-- An entry of `legacy_sutta_map.json`. -/
structure LegacyEntry where
  author_uid : String
  path : String
deriving Repr, DecidableEq

/-- The remote service: `plex` is the suttaplex fetch for an identifier
(`none` is any fetch failure or a missing document), `text` is the sutta
content fetch for an identifier/author pair, yielding
`suttaApiData.translation.text` (`none` is any fetch failure or a missing
nested field). -/
structure NetEnv where
  plex : String → Option Plex
  text : String → String → Option String

/-- The mutable state of one `run()` of `fetch_legacy.js`: the in-memory
legacy map, the `count` of successful additions, the map last written to
`LEGACY_MAP_FILE` (`disk`), and the identifiers for which a network fetch
has been issued (each fetch appends the identifier once). -/
structure BState where
  map : List (String × LegacyEntry)
  count : Nat
  disk : List (String × LegacyEntry)
  fetched : List String
deriving Repr, DecidableEq

/-- One iteration of the `for (const uid of missingLeaves)` loop of
`fetch_legacy.js`, at iteration granularity: skip when the legacy map
already has the identifier; otherwise fetch the suttaplex, take the first
English translation, fetch the content, and on a truthy text persist the
document and record the map entry, flushing the map to disk after every
10th successful addition. -/
def backfillStep (env : NetEnv) (st : BState) (uid : String) : BState :=
  if (getVal st.map uid).isSome then st
  else
    let st1 := { st with fetched := st.fetched ++ [uid] }
    match env.plex uid with
    | none => st1
    | some plex =>
      match plex.translations.filter (fun t => t.lang == "en") with
      | [] => st1
      | target :: _ =>
        let author := target.author_uid
        let st2 := { st1 with fetched := st1.fetched ++ [uid] }
        match env.text uid author with
        | none => st2
        | some txt =>
          if txt == "" then st2
          else
            let entry : LegacyEntry :=
              { author_uid := author,
                path := "legacy/en/" ++ author ++ "/" ++ uid ++ ".html" }
            let map1 := setVal st2.map uid entry
            let count1 := st2.count + 1
            { map := map1, count := count1,
              disk := if count1 % 10 == 0 then map1 else st2.disk,
              fetched := st2.fetched }

/-- The identifiers the loop iterates over: menu leaves absent from the
sutta index (`allLeaves.filter((uid) => !suttaIndex[uid])`).  `indexKeys`
are the keys of `sutta_index.json`; `leaves` is the set of leaf identifiers
collected from the menu documents, in iteration order. -/
def missingLeaves (indexKeys : List String) (leaves : List String) :
    List String :=
  leaves.filter (fun uid => !(indexKeys.contains uid))

/-- The state after the first `i` loop iterations of a `run()` that started
from legacy map `map0` (the on-disk map read at the start; `disk`
therefore also starts at `map0`). -/
def backfillPartial (env : NetEnv) (indexKeys : List String)
    (map0 : List (String × LegacyEntry)) (leaves : List String) (i : Nat) :
    BState :=
  ((missingLeaves indexKeys leaves).take i).foldl (backfillStep env)
    { map := map0, count := 0, disk := map0, fetched := [] }

/-- A complete `run()` of `fetch_legacy.js`: every loop iteration followed
by the unconditional final save of the legacy map. -/
def backfillRun (env : NetEnv) (indexKeys : List String)
    (map0 : List (String × LegacyEntry)) (leaves : List String) : BState :=
  let fin := (missingLeaves indexKeys leaves).foldl (backfillStep env)
    { map := map0, count := 0, disk := map0, fetched := [] }
  { fin with disk := fin.map }

/-! ## Pipeline Orchestrator (`scripts/build_pipeline.js`) -/

/-- The environment one pipeline run executes in: whether the corpus has
git metadata, whether a fresh clone would succeed, the output of
`git pull origin published` (`none` is a thrown failure), whether
`sutta_index.json` already exists, and whether each later stage command
succeeds.  Commit-info retrieval (step 2) is absorbed with fallback values
and never affects control flow. -/
structure PipelineEnv where
  gitPresent : Bool
  cloneOk : Bool
  pullOutput : Option String
  indexExists : Bool
  menuFetchOk : Bool
  cleanupOk : Bool
  buildIndexOk : Bool
  fetchLegacyOk : Bool
  bundleOk : Bool
deriving Repr, DecidableEq

/-- The stages of `buildPipeline`, in source order. -/
inductive Stage where
  | sync
  | commitInfo
  | menuFetch
  | cleanup
  | buildIdx
  | fetchLegacy
  | bundle
  | versionStamp
deriving Repr, DecidableEq

/-- The observable outcome of one pipeline process: its exit code, the
stages that were started, and whether the version artifact
(`public/data.json`) was written. -/
structure RunResult where
  exitCode : Nat
  stages : List Stage
  versionWritten : Bool
deriving Repr, DecidableEq

/-- Steps 2–8 of `buildPipeline`, reached whenever step 1 does not
short-circuit: any command failure in steps 3–7 is fatal
(`process.exit(1)` via the thrown error and the top-level catch), and the
version artifact is written only inside the `try` block after
`generateBundle()` succeeds. -/
def afterSync (env : PipelineEnv) : RunResult :=
  let s := [Stage.sync, Stage.commitInfo]
  if !env.menuFetchOk then
    { exitCode := 1, stages := s ++ [Stage.menuFetch], versionWritten := false }
  else if !env.cleanupOk then
    { exitCode := 1, stages := s ++ [Stage.menuFetch, Stage.cleanup],
      versionWritten := false }
  else if !env.buildIndexOk then
    { exitCode := 1,
      stages := s ++ [Stage.menuFetch, Stage.cleanup, Stage.buildIdx],
      versionWritten := false }
  else if !env.fetchLegacyOk then
    { exitCode := 1,
      stages := s ++ [Stage.menuFetch, Stage.cleanup, Stage.buildIdx,
        Stage.fetchLegacy],
      versionWritten := false }
  else if !env.bundleOk then
    { exitCode := 1,
      stages := s ++ [Stage.menuFetch, Stage.cleanup, Stage.buildIdx,
        Stage.fetchLegacy, Stage.bundle],
      versionWritten := false }
  else
    { exitCode := 0,
      stages := s ++ [Stage.menuFetch, Stage.cleanup, Stage.buildIdx,
        Stage.fetchLegacy, Stage.bundle, Stage.versionStamp],
      versionWritten := true }

/-- `buildPipeline` of `scripts/build_pipeline.js`.  Step 1: with no git
metadata a fresh clone is attempted (its failure is fatal); otherwise a
pull whose own failure is absorbed, and whose output containing
`"Already up to date."` together with an existing index short-circuits the
whole run with `process.exit(0)`. -/
def buildPipeline (env : PipelineEnv) : RunResult :=
  if !env.gitPresent then
    if !env.cloneOk then
      { exitCode := 1, stages := [Stage.sync], versionWritten := false }
    else afterSync env
  else
    match env.pullOutput with
    | none => afterSync env
    | some out =>
      if jsIncludes out "Already up to date." then
        if env.indexExists then
          { exitCode := 0, stages := [Stage.sync], versionWritten := false }
        else afterSync env
      else afterSync env

/-! ## Build trigger and log ring (`app.js` admin routes) -/

/-- The observable fields of a forked build process handle. -/
structure Proc where
  killed : Bool
  exitCode : Option Int
deriving Repr, DecidableEq

/-- The process-wide mutable state of `app.js`: the bounded log ring
`buildLogs` and the current child-process handle `buildProcess`. -/
structure ServerState where
  buildLogs : List String
  buildProcess : Option Proc
deriving Repr, DecidableEq

/-- `appendLog` of `app.js`: push a timestamped line, then keep the ring
bounded to the last 1000 lines. -/
def appendLog (timestamp msg : String) (logs : List String) : List String :=
  let l := logs ++ ["[" ++ timestamp ++ "] " ++ msg]
  if l.length > 1000 then l.drop 1 else l

/-- The guard of the `POST /api/admin/build-offline` route:
`buildProcess && !buildProcess.killed && buildProcess.exitCode === null`. -/
def procRunning : Option Proc → Bool
  | some p => !p.killed && p.exitCode == none
  | none => false

/-- `triggerOfflineBuild` of `app.js`: with the build script missing it
returns early leaving the state untouched; otherwise it resets the log
ring, appends the start line, and installs the freshly forked handle
(`newProc`, with `now` the timestamp taken inside `appendLog`). -/
def triggerOfflineBuild (scriptExists : Bool) (now : String) (newProc : Proc)
    (s : ServerState) : ServerState :=
  if !scriptExists then s
  else
    { buildLogs := appendLog now "Starting new build process..." [],
      buildProcess := some newProc }

/-- The three responses of the route: 409, 202 and 500. -/
inductive BuildResponse where
  | alreadyRunning
  | started
  | startFailed
deriving Repr, DecidableEq

/-- The `POST /api/admin/build-offline` handler of `app.js`: reject with
409 while a run is active, otherwise trigger the build and answer 500 when
no process handle resulted, 202 otherwise. -/
def postBuildOffline (scriptExists : Bool) (now : String) (newProc : Proc)
    (s : ServerState) : ServerState × BuildResponse :=
  if procRunning s.buildProcess then (s, .alreadyRunning)
  else
    let s1 := triggerOfflineBuild scriptExists now newProc s
    if s1.buildProcess = none then (s1, .startFailed)
    else (s1, .started)

/-! ## Concrete instances used by witnesses -/

/-- A pipeline environment whose pull reports no new changes over an
existing index. -/
def c4env : PipelineEnv :=
  { gitPresent := true, cloneOk := true,
    pullOutput := some "Already up to date.", indexExists := true,
    menuFetchOk := true, cleanupOk := true, buildIndexOk := true,
    fetchLegacyOk := true, bundleOk := true }

/-- A pipeline environment that reaches bundling and fails there. -/
def c7env : PipelineEnv :=
  { gitPresent := false, cloneOk := true, pullOutput := none,
    indexExists := false, menuFetchOk := true, cleanupOk := true,
    buildIndexOk := true, fetchLegacyOk := true, bundleOk := false }

/-- A server state with an active build process and one logged line. -/
def c8state : ServerState :=
  { buildLogs := ["[t0] previous line"],
    buildProcess := some { killed := false, exitCode := none } }

/-- A network environment where every fetch fails. -/
def c5net : NetEnv := { plex := fun _ => none, text := fun _ _ => none }

/-- A network environment where every fetch succeeds with an English
translation by `sujato` and nonempty text. -/
def c6net : NetEnv :=
  { plex := fun _ => some { translations := [{ lang := "en", author_uid := "sujato" }] },
    text := fun _ _ => some "text" }

/-- Ten distinct menu leaves. -/
def c6leaves : List String :=
  ["u0", "u1", "u2", "u3", "u4", "u5", "u6", "u7", "u8", "u9"]

/-- A legacy map that already covers `dn1`. -/
def c5map0 : List (String × LegacyEntry) :=
  [("dn1", { author_uid := "sujato", path := "legacy/en/sujato/dn1.html" })]

/-- A concrete index entry with one root and one translation. -/
def c1entry : SuttaEntry :=
  { root := some "dn/dn1_root-pli-ms.json",
    translations := [("sujato", "sutta/dn/dn1_translation-en-sujato.json")] }

/-- A concrete one-entry index. -/
def c1idx : List (String × SuttaEntry) := [("dn1", c1entry)]

/-- A concrete index entry whose translations carry a non-primary author. -/
def c2entry : SuttaEntry :=
  { root := some "dn/dn2_root-pli-ms.json",
    translations := [("other", "sutta/dn/dn2_translation-en-other.json")] }

/-- A concrete one-entry index for the error-handling claim. -/
def c2idx : List (String × SuttaEntry) := [("dn2", c2entry)]

/-- A concrete root-facet walk discovering only `dn1`. -/
def c3roots : List FoundFile := [⟨["dn"], "dn1_root-pli-ms.json"⟩]

/-- A concrete translation walk discovering a translation of `dn2`, which
has no root file. -/
def c3trees : List (String × List FoundFile) :=
  [("sujato", [⟨["sutta", "dn"], "dn2_translation-en-sujato.json"⟩])]

/-- Two root files for the same identifier `x`, in walk order. -/
def c9files : List FoundFile :=
  [⟨["a"], "x_root-pli-ms.json"⟩, ⟨["b"], "x_root-pli-ms.json"⟩]

/-- A concrete translation walk with one English translation file. -/
def c10trees : List (String × List FoundFile) :=
  [("sujato", [⟨["sutta", "dn"], "dn1_translation-en-sujato.json"⟩])]

/-- Durability invariant of a backfill state relative to the legacy map the
run started from: the in-memory map is the starting map plus the appended
new entries (one per successful addition), and the on-disk map is the
starting map plus the first `count - count % 10` new entries — exactly the
batches flushed so far. -/
def durableInv (map0 : List (String × LegacyEntry)) (st : BState) : Prop :=
  ∃ added, st.map = map0 ++ added ∧ added.length = st.count ∧
    st.disk = map0 ++ added.take (st.count - st.count % 10)

/-! ## Association-list lemmas -/

theorem getVal_append_of_some {α : Type} {m : List (String × α)}
    (l : List (String × α)) {k : String} {v : α} (h : getVal m k = some v) :
    getVal (m ++ l) k = some v := by
  induction m with
  | nil => simp [getVal] at h
  | cons p rest ih =>
    by_cases hp : p.1 = k
    · simp only [getVal, hp, if_pos] at h ⊢
      exact h
    · rw [List.cons_append]
      simp only [getVal, hp, ite_false] at h ⊢
      exact ih h

theorem getVal_append_of_none {α : Type} {m : List (String × α)}
    (l : List (String × α)) {k : String} (h : getVal m k = none) :
    getVal (m ++ l) k = getVal l k := by
  induction m with
  | nil => rfl
  | cons p rest ih =>
    by_cases hp : p.1 = k
    · simp [getVal, hp] at h
    · simp only [getVal, hp, ite_false, List.cons_append] at h ⊢
      exact ih h

theorem getVal_setVal {α : Type} (m : List (String × α)) (k : String) (v : α)
    (k' : String) :
    getVal (setVal m k v) k' = if k = k' then some v else getVal m k' := by
  induction m with
  | nil => simp [setVal, getVal]
  | cons p rest ih =>
    by_cases h1 : p.1 = k
    · by_cases h3 : k = k' <;> simp_all [setVal, getVal]
    · by_cases h2 : p.1 = k' <;> by_cases h3 : k = k' <;>
        simp_all [setVal, getVal]

theorem getVal_updateVal {α : Type} (m : List (String × α)) (k : String)
    (g : α → α) (k' : String) :
    getVal (updateVal m k g) k' =
      if k = k' then (getVal m k').map g else getVal m k' := by
  induction m with
  | nil => simp [updateVal, getVal]
  | cons p rest ih =>
    by_cases h1 : p.1 = k <;> by_cases h2 : p.1 = k' <;>
      by_cases h3 : k = k' <;> simp_all [updateVal, getVal]

theorem mem_setVal {α : Type} {m : List (String × α)} {k : String} {v : α}
    {ap : String × α} (h : ap ∈ setVal m k v) : ap ∈ m ∨ ap = (k, v) := by
  induction m with
  | nil => simp [setVal] at h; simp [h]
  | cons p rest ih =>
    by_cases hp : p.1 = k
    · simp only [setVal, hp, if_pos, List.mem_cons] at h
      rcases h with h | h
      · exact Or.inr h
      · exact Or.inl (List.mem_cons_of_mem _ h)
    · simp only [setVal, hp, ite_false, List.mem_cons] at h
      rcases h with h | h
      · exact Or.inl (h ▸ List.mem_cons_self _ _)
      · rcases ih h with h' | h'
        · exact Or.inl (List.mem_cons_of_mem _ h')
        · exact Or.inr h'

theorem setVal_ne_nil {α : Type} (m : List (String × α)) (k : String) (v : α) :
    setVal m k v ≠ [] := by
  cases m with
  | nil => simp [setVal]
  | cons p rest =>
    by_cases hp : p.1 = k <;> simp [setVal, hp]

theorem setVal_of_getVal_none {α : Type} {m : List (String × α)} {k : String}
    (v : α) (h : getVal m k = none) : setVal m k v = m ++ [(k, v)] := by
  induction m with
  | nil => simp [setVal]
  | cons p rest ih =>
    by_cases hp : p.1 = k
    · simp [getVal, hp] at h
    · simp only [getVal, hp, ite_false] at h
      simp [setVal, hp, ih h]

theorem getVal_eq_none_iff {α : Type} (m : List (String × α)) (k : String) :
    getVal m k = none ↔ k ∉ m.map Prod.fst := by
  induction m with
  | nil => simp [getVal]
  | cons p rest ih =>
    by_cases hp : p.1 = k <;> simp_all [getVal, hp, eq_comm]

theorem getVal_mem {α : Type} {m : List (String × α)} {k : String} {v : α}
    (h : getVal m k = some v) : (k, v) ∈ m := by
  induction m with
  | nil => simp [getVal] at h
  | cons p rest ih =>
    by_cases hp : p.1 = k
    · simp only [getVal, hp, if_pos, Option.some.injEq] at h
      subst h
      exact hp ▸ List.mem_cons_self _ _
    · simp only [getVal, hp, ite_false] at h
      exact List.mem_cons_of_mem _ (ih h)

theorem getVal_isSome_iff {α : Type} (m : List (String × α)) (k : String) :
    (getVal m k).isSome = true ↔ k ∈ m.map Prod.fst := by
  cases hg : getVal m k with
  | none =>
    have := (getVal_eq_none_iff m k).mp hg
    simp [this]
  | some v =>
    simp only [Option.isSome_some, true_iff]
    exact List.mem_map.mpr ⟨(k, v), getVal_mem hg, rfl⟩

/-! ## Claim C4: pipeline short-circuit -/

/-- C4: if the sync step reports no new changes (the pull output contains
"Already up to date.") and an index file already exists, the pipeline run
terminates immediately with exit code 0, executing none of the subsequent
stages, and without writing the version artifact. -/
theorem pipeline_short_circuit (env : PipelineEnv) (out : String)
    (h1 : env.gitPresent = true) (h2 : env.pullOutput = some out)
    (h3 : jsIncludes out "Already up to date." = true)
    (h4 : env.indexExists = true) :
    (buildPipeline env).exitCode = 0 ∧
    (buildPipeline env).stages = [Stage.sync] ∧
    (buildPipeline env).versionWritten = false := by
  simp [buildPipeline, h1, h2, h3, h4]

/-- Witness for C4 at a concrete environment. -/
theorem pipeline_short_circuit_witness :
    (buildPipeline c4env).exitCode = 0 ∧
    (buildPipeline c4env).stages = [Stage.sync] ∧
    (buildPipeline c4env).versionWritten = false :=
  pipeline_short_circuit c4env "Already up to date." rfl rfl (by decide) rfl

/-! ## Claim C7: version stamp only after bundling -/

/-- Every pipeline run ends in one of the two step-1 outcomes or continues
with the later stages. -/
theorem buildPipeline_cases (env : PipelineEnv) :
    buildPipeline env
        = { exitCode := 1, stages := [Stage.sync], versionWritten := false } ∨
    buildPipeline env
        = { exitCode := 0, stages := [Stage.sync], versionWritten := false } ∨
    buildPipeline env = afterSync env := by
  unfold buildPipeline
  cases hg : env.gitPresent with
  | false => cases hc : env.cloneOk <;> simp
  | true =>
    cases hp : env.pullOutput with
    | none => simp
    | some out =>
      by_cases hi : jsIncludes out "Already up to date." = true
      · cases he : env.indexExists <;> simp [hi, he]
      · simp only [Bool.not_eq_true] at hi
        simp [hi]

/-- The stages after sync write the version artifact only when bundling
succeeded, and a reached-but-failed bundling yields exit code 1 with no
version artifact. -/
theorem afterSync_bundle_behaviour (env : PipelineEnv) :
    ((afterSync env).versionWritten = true →
      env.bundleOk = true ∧ (afterSync env).exitCode = 0) ∧
    (Stage.bundle ∈ (afterSync env).stages → env.bundleOk = false →
      (afterSync env).exitCode = 1 ∧ (afterSync env).versionWritten = false) := by
  constructor
  · intro hv
    unfold afterSync at hv ⊢
    split_ifs at hv ⊢
    all_goals simp_all
  · intro hmem hbo
    unfold afterSync at hmem ⊢
    split_ifs at hmem ⊢
    all_goals simp_all

/-- C7: the version-stamp artifact is persisted only in runs whose bundling
succeeded (and which exit 0), and a run whose bundling stage runs and fails
exits with code 1 without writing the version artifact. -/
theorem version_stamp_only_after_bundle (env : PipelineEnv) :
    ((buildPipeline env).versionWritten = true →
      env.bundleOk = true ∧ (buildPipeline env).exitCode = 0) ∧
    (Stage.bundle ∈ (buildPipeline env).stages → env.bundleOk = false →
      (buildPipeline env).exitCode = 1 ∧
      (buildPipeline env).versionWritten = false) := by
  rcases buildPipeline_cases env with h | h | h <;> rw [h]
  · constructor
    · intro hv; simp at hv
    · intro hmem; simp at hmem
  · constructor
    · intro hv; simp at hv
    · intro hmem; simp at hmem
  · exact afterSync_bundle_behaviour env

/-- Witness for C7 at a concrete environment whose bundling stage fails. -/
theorem version_stamp_only_after_bundle_witness :
    (buildPipeline c7env).exitCode = 1 ∧
    (buildPipeline c7env).versionWritten = false :=
  (version_stamp_only_after_bundle c7env).2 (by decide) rfl

/-! ## Claim C8: concurrent trigger rejection -/

/-- C8: a trigger received while a run is active is rejected with the 409
response, and leaves the whole server state — in particular the log
ring — unchanged (no reset, no appended line). -/
theorem trigger_rejected_while_running (scriptExists : Bool) (now : String)
    (newProc : Proc) (s : ServerState)
    (h : procRunning s.buildProcess = true) :
    postBuildOffline scriptExists now newProc s
        = (s, BuildResponse.alreadyRunning) ∧
    (postBuildOffline scriptExists now newProc s).1.buildLogs
        = s.buildLogs := by
  constructor
  · simp [postBuildOffline, h]
  · simp [postBuildOffline, h]

/-- Witness for C8 at a concrete state with an active build process. -/
theorem trigger_rejected_while_running_witness :
    postBuildOffline true "t1" { killed := false, exitCode := none } c8state
        = (c8state, BuildResponse.alreadyRunning) ∧
    (postBuildOffline true "t1" { killed := false, exitCode := none }
        c8state).1.buildLogs = c8state.buildLogs :=
  trigger_rejected_while_running true "t1"
    { killed := false, exitCode := none } c8state (by decide)

/-! ## Claim C5: legacy backfill idempotent skip -/

/-- One loop iteration never fetches an identifier already covered by the
legacy map, and keeps it covered. -/
theorem backfillStep_preserves_skip (env : NetEnv) (st : BState)
    (u uid : String) (h1 : (getVal st.map uid).isSome = true)
    (h2 : uid ∉ st.fetched) :
    (getVal (backfillStep env st u).map uid).isSome = true ∧
    uid ∉ (backfillStep env st u).fetched := by
  by_cases hs : (getVal st.map u).isSome = true
  · simp only [backfillStep, hs, if_true]
    exact ⟨h1, h2⟩
  · have hne : u ≠ uid := by
      intro he
      subst he
      exact hs h1
    have hnone : getVal st.map u = none := by
      cases hg : getVal st.map u with
      | none => rfl
      | some v => rw [hg] at hs; simp at hs
    have hnotin1 : uid ∉ st.fetched ++ [u] := by
      simp only [List.mem_append, List.mem_singleton]
      rintro (h | h)
      · exact h2 h
      · exact hne h.symm
    have hnotin2 : uid ∉ (st.fetched ++ [u]) ++ [u] := by
      simp only [List.mem_append, List.mem_singleton]
      rintro ((h | h) | h)
      · exact h2 h
      · exact hne h.symm
      · exact hne h.symm
    simp only [backfillStep, hnone, Option.isSome_none, Bool.false_eq_true,
      if_false]
    split
    · exact ⟨h1, hnotin1⟩
    · split
      · exact ⟨h1, hnotin1⟩
      · split
        · exact ⟨h1, hnotin2⟩
        · split
          · exact ⟨h1, hnotin2⟩
          · refine ⟨?_, hnotin2⟩
            rw [getVal_setVal, if_neg hne]
            exact h1

/-- Folding the loop over any identifier list preserves the skip
property. -/
theorem backfillFold_preserves_skip (env : NetEnv) (uid : String)
    (l : List String) :
    ∀ st : BState, (getVal st.map uid).isSome = true → uid ∉ st.fetched →
      (getVal (l.foldl (backfillStep env) st).map uid).isSome = true ∧
      uid ∉ (l.foldl (backfillStep env) st).fetched := by
  induction l with
  | nil => intro st h1 h2; exact ⟨h1, h2⟩
  | cons u rest ih =>
    intro st h1 h2
    have h := backfillStep_preserves_skip env st u uid h1 h2
    exact ih _ h.1 h.2

/-- C5: an identifier already present in the legacy map at the start of a
backfill run is never fetched during the run, and is still present at the
end — so the skip also holds across every repeated invocation. -/
theorem legacy_backfill_idempotent_skip (env : NetEnv)
    (indexKeys : List String) (map0 : List (String × LegacyEntry))
    (leaves : List String) (uid : String)
    (h : (getVal map0 uid).isSome = true) :
    uid ∉ (backfillRun env indexKeys map0 leaves).fetched ∧
    (getVal (backfillRun env indexKeys map0 leaves).map uid).isSome
        = true := by
  have h2 : uid ∉ ([] : List String) := by simp
  have hfold := backfillFold_preserves_skip env uid
    (missingLeaves indexKeys leaves)
    { map := map0, count := 0, disk := map0, fetched := [] } h h2
  exact ⟨hfold.2, hfold.1⟩

/-- Witness for C5 at a concrete covered identifier. -/
theorem legacy_backfill_idempotent_skip_witness :
    "dn1" ∉ (backfillRun c5net [] c5map0 ["dn1", "mn1"]).fetched ∧
    (getVal (backfillRun c5net [] c5map0 ["dn1", "mn1"]).map "dn1").isSome
        = true :=
  legacy_backfill_idempotent_skip c5net [] c5map0 ["dn1", "mn1"] "dn1"
    (by decide)

/-! ## Claim C6: legacy map flush durability -/

/-- The durability invariant survives a successful addition, whatever
entry is added and however the fetch trace changed. -/
theorem durable_success (map0 : List (String × LegacyEntry)) (st : BState)
    (u : String) (e : LegacyEntry) (hnone : getVal st.map u = none)
    (h : durableInv map0 st) (fet : List String) :
    durableInv map0
      { map := setVal st.map u e, count := st.count + 1,
        disk := if ((st.count + 1) % 10 == 0) = true
          then setVal st.map u e else st.disk,
        fetched := fet } := by
  rcases h with ⟨added, hm, hl, hd⟩
  have hset := setVal_of_getVal_none e hnone
  refine ⟨added ++ [(u, e)], ?_, ?_, ?_⟩
  · show setVal st.map u e = map0 ++ (added ++ [(u, e)])
    rw [hset, hm, List.append_assoc]
  · simp [hl]
  · by_cases h10 : (st.count + 1) % 10 = 0
    · have hb : ((st.count + 1) % 10 == 0) = true := by simp [h10]
      show (if ((st.count + 1) % 10 == 0) = true
          then setVal st.map u e else st.disk)
          = map0 ++ (added ++ [(u, e)]).take (st.count + 1 - (st.count + 1) % 10)
      rw [if_pos hb, hset, hm, List.append_assoc, h10, Nat.sub_zero]
      have hlen : (added ++ [(u, e)]).length = st.count + 1 := by simp [hl]
      rw [← hlen, List.take_length]
    · have hb : ¬((st.count + 1) % 10 == 0) = true := by simp [h10]
      show (if ((st.count + 1) % 10 == 0) = true
          then setVal st.map u e else st.disk)
          = map0 ++ (added ++ [(u, e)]).take (st.count + 1 - (st.count + 1) % 10)
      rw [if_neg hb, hd]
      have harith : st.count + 1 - (st.count + 1) % 10
          = st.count - st.count % 10 := by omega
      rw [harith, List.take_append_of_le_length (by omega)]

/-- One loop iteration preserves the durability invariant. -/
theorem backfillStep_durable (env : NetEnv)
    (map0 : List (String × LegacyEntry)) (st : BState) (u : String)
    (h : durableInv map0 st) : durableInv map0 (backfillStep env st u) := by
  by_cases hs : (getVal st.map u).isSome = true
  · simp only [backfillStep, hs, if_true]
    exact h
  · have hnone : getVal st.map u = none := by
      cases hg : getVal st.map u with
      | none => rfl
      | some v => rw [hg] at hs; simp at hs
    rcases h with ⟨added, hm, hl, hd⟩
    simp only [backfillStep, hnone, Option.isSome_none, Bool.false_eq_true,
      if_false]
    split
    · exact ⟨added, hm, hl, hd⟩
    split
    · exact ⟨added, hm, hl, hd⟩
    split
    · exact ⟨added, hm, hl, hd⟩
    split
    · exact ⟨added, hm, hl, hd⟩
    exact durable_success map0 st u _ hnone ⟨added, hm, hl, hd⟩ _

/-- Folding the loop preserves the durability invariant. -/
theorem backfillFold_durable (env : NetEnv)
    (map0 : List (String × LegacyEntry)) (l : List String) :
    ∀ st : BState, durableInv map0 st →
      durableInv map0 (l.foldl (backfillStep env) st) := by
  induction l with
  | nil => intro st h; exact h
  | cons u rest ih =>
    intro st h
    exact ih _ (backfillStep_durable env map0 st u h)

/-- The starting state of a run satisfies the durability invariant. -/
theorem durableInv_init (map0 : List (String × LegacyEntry)) :
    durableInv map0 { map := map0, count := 0, disk := map0, fetched := [] } :=
  ⟨[], by simp, rfl, by simp⟩

/-- C6: the final save always flushes the whole in-memory map, after every
iteration the on-disk map is the starting map plus exactly the first
`count - count % 10` newly added entries (the flush after every 10th
successful addition), and hence killing the process after any iteration
with `N ≥ 10` successful additions leaves at least `⌊N/10⌋ * 10` of the
newly added entries on disk. -/
theorem legacy_map_flush_durability (env : NetEnv) (indexKeys : List String)
    (map0 : List (String × LegacyEntry)) (leaves : List String) :
    (backfillRun env indexKeys map0 leaves).disk
        = (backfillRun env indexKeys map0 leaves).map ∧
    (∀ i, durableInv map0 (backfillPartial env indexKeys map0 leaves i)) ∧
    (∀ i, 10 ≤ (backfillPartial env indexKeys map0 leaves i).count →
      map0.length
          + (backfillPartial env indexKeys map0 leaves i).count / 10 * 10
        ≤ (backfillPartial env indexKeys map0 leaves i).disk.length) := by
  refine ⟨rfl, ?_, ?_⟩
  · intro i
    exact backfillFold_durable env map0 _ _ (durableInv_init map0)
  · intro i hN
    rcases backfillFold_durable env map0
      ((missingLeaves indexKeys leaves).take i)
      { map := map0, count := 0, disk := map0, fetched := [] }
      (durableInv_init map0) with ⟨added, hm, hl, hd⟩
    have hd' : (backfillPartial env indexKeys map0 leaves i).disk
        = map0 ++ added.take
          ((backfillPartial env indexKeys map0 leaves i).count
            - (backfillPartial env indexKeys map0 leaves i).count % 10) := hd
    rw [hd', List.length_append, List.length_take]
    have hl' : added.length
        = (backfillPartial env indexKeys map0 leaves i).count := hl
    omega

/-- Witness for C6 at a concrete run with ten successful additions. -/
theorem legacy_map_flush_durability_witness :
    10 ≤ (backfillPartial c6net [] [] c6leaves 10).count ∧
    ([] : List (String × LegacyEntry)).length
        + (backfillPartial c6net [] [] c6leaves 10).count / 10 * 10
      ≤ (backfillPartial c6net [] [] c6leaves 10).disk.length :=
  ⟨by decide, (legacy_map_flush_durability c6net [] [] c6leaves).2.2 10
    (by decide)⟩

/-! ## Claim C1: author fallback policy -/

/-- With nonempty stored paths, truthiness of `translations[a]` is exactly
key membership. -/
theorem jsTruthy_getVal_iff (ts : List (String × String)) (a : String)
    (hwf : ∀ p ∈ ts, p.2 ≠ "") :
    jsTruthy (getVal ts a) = true ↔ a ∈ ts.map Prod.fst := by
  cases hg : getVal ts a with
  | none =>
    have := (getVal_eq_none_iff ts a).mp hg
    simp [jsTruthy, this]
  | some v =>
    have hv : v ≠ "" := hwf _ (getVal_mem hg)
    have hmem : a ∈ ts.map Prod.fst :=
      List.mem_map.mpr ⟨(a, v), getVal_mem hg, rfl⟩
    simp [jsTruthy, hv, hmem]

/-- A key absent from the map has a falsy lookup. -/
theorem jsTruthy_getVal_false (ts : List (String × String)) (a : String)
    (h : a ∉ ts.map Prod.fst) : jsTruthy (getVal ts a) = false := by
  have hg : getVal ts a = none := (getVal_eq_none_iff ts a).mpr h
  simp [jsTruthy, hg]

/-- The selected author of the fallback chain, compared with the
spec-worded chain. -/
theorem fallbackSel_fst (ts : List (String × String)) (t0 : String × String)
    (hwf : ∀ p ∈ ts, p.2 ≠ "")
    (hhead : (ts.map Prod.fst).head? = some t0.1) :
    (fallbackSel ts t0).1 =
      (if "sujato" ∈ ts.map Prod.fst then some "sujato"
       else if "brahmali" ∈ ts.map Prod.fst then some "brahmali"
       else (ts.map Prod.fst).head?) := by
  by_cases hs : "sujato" ∈ ts.map Prod.fst
  · rw [if_pos hs]
    simp [fallbackSel, (jsTruthy_getVal_iff ts "sujato" hwf).mpr hs]
  · rw [if_neg hs]
    have hs2 : jsTruthy (getVal ts "sujato") = false :=
      jsTruthy_getVal_false ts "sujato" hs
    by_cases hb : "brahmali" ∈ ts.map Prod.fst
    · rw [if_pos hb]
      simp [fallbackSel, hs2, (jsTruthy_getVal_iff ts "brahmali" hwf).mpr hb]
    · rw [if_neg hb]
      have hb2 : jsTruthy (getVal ts "brahmali") = false :=
        jsTruthy_getVal_false ts "brahmali" hb
      simp [fallbackSel, hs2, hb2, hhead]

/-- The handler's author selection agrees with the spec-worded policy on
every entry whose keys and paths are nonempty (true of every entry the
Index Builder produces: authors are directory names and paths are relative
paths ending in a filename). -/
theorem selectAuthorPath_fst (requested : Option String)
    (ts : List (String × String))
    (hwfk : ∀ p ∈ ts, p.1 ≠ "") (hwfv : ∀ p ∈ ts, p.2 ≠ "") :
    (selectAuthorPath requested ts).1 = claimAuthorPolicy requested ts := by
  cases ts with
  | nil => cases requested <;> simp [selectAuthorPath, claimAuthorPolicy]
  | cons t0 rest =>
    have hhead : ((t0 :: rest).map Prod.fst).head? = some t0.1 := by simp
    cases requested with
    | none =>
      simp only [selectAuthorPath, claimAuthorPolicy]
      exact fallbackSel_fst _ t0 hwfv hhead
    | some a =>
      by_cases ha : a ∈ (t0 :: rest).map Prod.fst
      · have ha1 : a ≠ "" := by
          rcases List.mem_map.mp ha with ⟨p, hp, hep⟩
          exact hep ▸ hwfk p hp
        have ha2 : jsTruthy (getVal (t0 :: rest) a) = true :=
          (jsTruthy_getVal_iff _ a hwfv).mpr ha
        have hg : ((a != "") && jsTruthy (getVal (t0 :: rest) a)) = true := by
          simp [ha1, ha2]
        have ha' : a ∈ t0.1 :: rest.map Prod.fst := by simpa using ha
        simp [selectAuthorPath, claimAuthorPolicy, hg, ha']
      · have ha2 : jsTruthy (getVal (t0 :: rest) a) = false :=
          jsTruthy_getVal_false _ a ha
        simp only [selectAuthorPath, claimAuthorPolicy, ha2, Bool.and_false,
          Bool.false_eq_true, if_false, ite_false, if_neg ha]
        exact fallbackSel_fst _ t0 hwfv hhead

/-- C1: for an identifier present in the index (with the builder-guaranteed
nonempty keys and paths), the resolver selects exactly the author the
claimed priority chain names, and when the translations map is empty no
author is selected and the translation-dependent facets (translation,
comment, publication) resolve to the empty object. -/
theorem resolve_author_fallback (fileSys : String → Option Json)
    (pm : List (String × Publication)) (am : List (String × String))
    (idx : List (String × SuttaEntry)) (uid : String)
    (requested : Option String) (e : SuttaEntry)
    (he : getVal idx uid = some e)
    (hwfk : ∀ p ∈ e.translations, p.1 ≠ "")
    (hwfv : ∀ p ∈ e.translations, p.2 ≠ "") :
    ∃ b, resolveSutta fileSys pm am idx uid requested = .ok b ∧
      b.author_uid = claimAuthorPolicy requested e.translations ∧
      (e.translations = [] → b.author_uid = none ∧
        b.translation_text = jsonEmpty ∧ b.comment_text = jsonEmpty ∧
        b.publication_data = jsonEmpty) := by
  refine ⟨resolveEntry fileSys pm am uid requested e, ?_, ?_, ?_⟩
  · simp [resolveSutta, he]
  · exact selectAuthorPath_fst requested e.translations hwfk hwfv
  · intro h0
    refine ⟨?_, ?_, ?_, ?_⟩ <;>
      simp [resolveEntry, h0, selectAuthorPath, transCandidate,
        commentCandidate, loadFacet, publicationLookup]

/-- Witness for C1 at a concrete entry resolved without a requested
author. -/
theorem resolve_author_fallback_witness :
    ∃ b, resolveSutta (fun _ => none) [] [] c1idx "dn1" none = .ok b ∧
      b.author_uid = claimAuthorPolicy none c1entry.translations ∧
      (c1entry.translations = [] → b.author_uid = none ∧
        b.translation_text = jsonEmpty ∧ b.comment_text = jsonEmpty ∧
        b.publication_data = jsonEmpty) :=
  resolve_author_fallback (fun _ => none) [] [] c1idx "dn1" none c1entry
    (by decide) (by decide) (by decide)

/-! ## Claim C2: NotFound iff absent, best-effort facets -/

/-- C2: resolution fails with `NotFound` exactly when the identifier is
absent from the index; every present identifier yields a bundle, and each
facet whose candidate file is missing or unparseable (`readJson` returned
`null`) contributes the empty object instead of aborting. -/
theorem resolve_notfound_iff_best_effort (fileSys : String → Option Json)
    (pm : List (String × Publication)) (am : List (String × String))
    (idx : List (String × SuttaEntry)) (uid : String)
    (requested : Option String) :
    (resolveSutta fileSys pm am idx uid requested = .error .notFound ↔
      getVal idx uid = none) ∧
    (∀ e, getVal idx uid = some e →
      resolveSutta fileSys pm am idx uid requested
          = .ok (resolveEntry fileSys pm am uid requested e) ∧
      (∀ p, rootCandidate e = some p → fileSys p = none →
        (resolveEntry fileSys pm am uid requested e).root_text = jsonEmpty) ∧
      (∀ p, transCandidate (selectAuthorPath requested e.translations).1
          (selectAuthorPath requested e.translations).2 = some p →
        fileSys p = none →
        (resolveEntry fileSys pm am uid requested e).translation_text
          = jsonEmpty) ∧
      (∀ p, htmlCandidate e = some p → fileSys p = none →
        (resolveEntry fileSys pm am uid requested e).html_text = jsonEmpty) ∧
      (∀ p, commentCandidate (selectAuthorPath requested e.translations).1
          (selectAuthorPath requested e.translations).2 = some p →
        fileSys p = none →
        (resolveEntry fileSys pm am uid requested e).comment_text
          = jsonEmpty) ∧
      (∀ p, variantCandidate e = some p → fileSys p = none →
        (resolveEntry fileSys pm am uid requested e).variant_text
          = jsonEmpty) ∧
      (∀ p, referenceCandidate e = some p → fileSys p = none →
        (resolveEntry fileSys pm am uid requested e).reference_text
          = jsonEmpty)) := by
  constructor
  · cases hg : getVal idx uid <;> simp [resolveSutta, hg]
  · intro e he
    refine ⟨by simp [resolveSutta, he], ?_, ?_, ?_, ?_, ?_, ?_⟩ <;>
      intro p hc hf <;> simp [resolveEntry, hc, loadFacet, hf]

/-- Witness for C2: an unknown identifier fails, a known one succeeds with
an empty root facet when its file is missing. -/
theorem resolve_notfound_iff_best_effort_witness :
    resolveSutta (fun _ => none) [] [] c2idx "zzz" none
        = .error .notFound ∧
    resolveSutta (fun _ => none) [] [] c2idx "dn2" none
        = .ok (resolveEntry (fun _ => none) [] [] "dn2" none c2entry) ∧
    (resolveEntry (fun _ => none) [] [] "dn2" none c2entry).root_text
        = jsonEmpty := by
  have h1 := resolve_notfound_iff_best_effort (fun _ => none) [] [] c2idx
    "zzz" none
  have h2 := resolve_notfound_iff_best_effort (fun _ => none) [] [] c2idx
    "dn2" none
  rcases h2.2 c2entry (by decide) with ⟨hok, hroot, _⟩
  exact ⟨h1.1.mpr (by decide), hok,
    hroot "root/pli/ms/dn/dn2_root-pli-ms.json" (by decide) rfl⟩

/-! ## Index Builder lemmas -/

/-- Splitting a lookup in a map extended by one appended pair. -/
theorem getVal_append_single_cases {α : Type} {m : List (String × α)}
    {k : String} {v : α} {k' : String} {w : α}
    (h : getVal (m ++ [(k, v)]) k' = some w) :
    getVal m k' = some w ∨ (getVal m k' = none ∧ k = k' ∧ w = v) := by
  cases hg : getVal m k' with
  | some x =>
    rw [getVal_append_of_some _ hg] at h
    exact Or.inl h
  | none =>
    rw [getVal_append_of_none _ hg] at h
    by_cases hk : k = k'
    · right
      refine ⟨rfl, hk, ?_⟩
      simp [getVal, hk] at h
      exact h.symm
    · simp [getVal, hk] at h

/-- The root walk never modifies an existing entry. -/
theorem rootFold_preserve (rootFiles : List FoundFile) :
    ∀ (idx : List (String × SuttaEntry)) (uid : String) (e : SuttaEntry),
      getVal idx uid = some e →
      getVal (rootFiles.foldl addRootFile idx) uid = some e := by
  induction rootFiles with
  | nil => intro idx uid e h; exact h
  | cons f rest ih =>
    intro idx uid e h
    refine ih _ uid e ?_
    simp only [addRootFile]
    split
    · split
      · exact h
      · exact getVal_append_of_some _ h
    · exact h

/-- An identifier key appears after the root walk exactly when it was there
before or a matching root file was discovered. -/
theorem rootFold_getVal_isSome (rootFiles : List FoundFile) :
    ∀ (idx : List (String × SuttaEntry)) (uid : String),
      (getVal (rootFiles.foldl addRootFile idx) uid).isSome = true ↔
        ((getVal idx uid).isSome = true ∨ rootDiscovered rootFiles uid) := by
  induction rootFiles with
  | nil =>
    intro idx uid
    simp [rootDiscovered]
  | cons f rest ih =>
    intro idx uid
    rw [List.foldl_cons, ih]
    have hsplit : rootDiscovered (f :: rest) uid ↔
        ((jsEndsWith f.base rootSuffix = true ∧ rootUid f.base = uid) ∨
          rootDiscovered rest uid) := by
      unfold rootDiscovered
      constructor
      · rintro ⟨g, hg, h1, h2⟩
        rcases List.mem_cons.mp hg with rfl | hg'
        · exact Or.inl ⟨h1, h2⟩
        · exact Or.inr ⟨g, hg', h1, h2⟩
      · rintro (⟨h1, h2⟩ | ⟨g, hg', h1, h2⟩)
        · exact ⟨f, List.mem_cons_self _ _, h1, h2⟩
        · exact ⟨g, List.mem_cons_of_mem _ hg', h1, h2⟩
    rw [hsplit]
    by_cases hc : jsEndsWith f.base rootSuffix = true
    · have hstep : (getVal (addRootFile idx f) uid).isSome = true ↔
          ((getVal idx uid).isSome = true ∨ rootUid f.base = uid) := by
        simp only [addRootFile]
        rw [if_pos hc]
        cases hg : getVal idx (rootUid f.base) with
        | some x =>
          constructor
          · intro h; exact Or.inl h
          · rintro (h | h)
            · exact h
            · subst h; simp [hg]
        | none =>
          by_cases hu : rootUid f.base = uid
          · subst hu
            rw [getVal_append_of_none _ hg]
            simp [getVal]
          · have heq : getVal (idx ++ [(rootUid f.base,
                ({ root := some (relPath f),
                   translations := [] } : SuttaEntry))]) uid
                = getVal idx uid := by
              cases hg2 : getVal idx uid with
              | some x => exact getVal_append_of_some _ hg2
              | none =>
                rw [getVal_append_of_none _ hg2]
                simp [getVal, hu]
            rw [heq]
            simp [hu]
      rw [hstep]
      tauto
    · have hstep : (getVal (addRootFile idx f) uid).isSome
          = (getVal idx uid).isSome := by
        simp only [addRootFile]
        rw [if_neg hc]
      rw [hstep]
      tauto

/-- The entry the root walk stores for an identifier comes from the FIRST
matching file of the walk (`if (!index[uid])` skips later ones). -/
theorem rootFold_first (rootFiles : List FoundFile) :
    ∀ (idx : List (String × SuttaEntry)) (uid : String),
      getVal idx uid = none →
      getVal (rootFiles.foldl addRootFile idx) uid =
        (firstRootFile rootFiles uid).map
          (fun f => { root := some (relPath f), translations := [] }) := by
  induction rootFiles with
  | nil =>
    intro idx uid h
    simp [firstRootFile, h]
  | cons f rest ih =>
    intro idx uid h
    rw [List.foldl_cons]
    by_cases hc : jsEndsWith f.base rootSuffix = true
    · by_cases hu : rootUid f.base = uid
      · have hmatch : (jsEndsWith f.base rootSuffix
            && (rootUid f.base == uid)) = true := by
          simp [hc, hu]
        have hfirst : firstRootFile (f :: rest) uid = some f := by
          simp [firstRootFile, List.find?, hmatch]
        rw [hfirst]
        have hadd : addRootFile idx f
            = idx ++ [(uid, { root := some (relPath f), translations := [] })] := by
          simp only [addRootFile]
          rw [if_pos hc, hu, h]
        rw [hadd]
        have hget : getVal (idx ++ [(uid,
            ({ root := some (relPath f), translations := [] } : SuttaEntry))]) uid
            = some { root := some (relPath f), translations := [] } := by
          rw [getVal_append_of_none _ h]
          simp [getVal]
        exact rootFold_preserve rest _ uid _ hget
      · have hmatch : (jsEndsWith f.base rootSuffix
            && (rootUid f.base == uid)) = false := by
          simp [hc, hu]
        have hfirst : firstRootFile (f :: rest) uid = firstRootFile rest uid := by
          simp [firstRootFile, List.find?, hmatch]
        rw [hfirst]
        refine ih (addRootFile idx f) uid ?_
        simp only [addRootFile]
        rw [if_pos hc]
        cases hg : getVal idx (rootUid f.base) with
        | some x => exact h
        | none =>
          rw [getVal_append_of_none _ h]
          simp [getVal, hu]
    · have hmatch : (jsEndsWith f.base rootSuffix
          && (rootUid f.base == uid)) = false := by
        simp [hc]
      have hfirst : firstRootFile (f :: rest) uid = firstRootFile rest uid := by
        simp [firstRootFile, List.find?, hmatch]
      rw [hfirst]
      refine ih (addRootFile idx f) uid ?_
      simp only [addRootFile]
      rw [if_neg hc]
      exact h

/-- Every entry created by the root walk has a root path and no
translations yet. -/
theorem rootFold_shape (rootFiles : List FoundFile) :
    ∀ (idx : List (String × SuttaEntry)),
      (∀ uid e, getVal idx uid = some e →
        e.root.isSome = true ∧ e.translations = []) →
      ∀ uid e, getVal (rootFiles.foldl addRootFile idx) uid = some e →
        e.root.isSome = true ∧ e.translations = [] := by
  induction rootFiles with
  | nil => intro idx h; exact h
  | cons f rest ih =>
    intro idx h
    rw [List.foldl_cons]
    refine ih _ ?_
    intro uid e he
    simp only [addRootFile] at he
    split at he
    · split at he
      · exact h uid e he
      · rcases getVal_append_single_cases he with hin | ⟨_, _, hev⟩
        · exact h uid e hin
        · subst hev; exact ⟨rfl, rfl⟩
    · exact h uid e he

/-- Key presence after one translation-walk step. -/
theorem addTransFile_isSome (a : String) (idx : List (String × SuttaEntry))
    (f : FoundFile) (uid : String) :
    (getVal (addTransFile a idx f) uid).isSome = true ↔
      ((getVal idx uid).isSome = true ∨
        (jsIncludes f.base transTag = true ∧ transUid f.base = uid)) := by
  by_cases hj : jsIncludes f.base transTag = true
  · simp only [addTransFile]
    rw [if_pos hj, getVal_updateVal]
    by_cases hu : transUid f.base = uid
    · rw [if_pos hu]
      split
      next x heq =>
        subst hu
        simp [heq, hj]
      next heq =>
        subst hu
        rw [getVal_append_of_none _ heq]
        simp [getVal, hj]
    · rw [if_neg hu]
      split
      next x heq => simp [hj, hu]
      next heq =>
        have heq2 : getVal (idx ++ [(transUid f.base,
            ({ root := none, translations := [] } : SuttaEntry))]) uid
            = getVal idx uid := by
          cases hg2 : getVal idx uid with
          | some y => exact getVal_append_of_some _ hg2
          | none =>
            rw [getVal_append_of_none _ hg2]
            simp [getVal, hu]
        rw [heq2]
        simp [hj, hu]
  · simp only [addTransFile]
    rw [if_neg hj]
    have hno : ¬(jsIncludes f.base transTag = true ∧ transUid f.base = uid) :=
      fun h => hj h.1
    tauto

/-- Key presence after the walk of one author directory. -/
theorem transFileFold_isSome (a : String) (files : List FoundFile) :
    ∀ (idx : List (String × SuttaEntry)) (uid : String),
      (getVal (files.foldl (addTransFile a) idx) uid).isSome = true ↔
        ((getVal idx uid).isSome = true ∨
          ∃ f ∈ files, jsIncludes f.base transTag = true ∧
            transUid f.base = uid) := by
  induction files with
  | nil =>
    intro idx uid
    simp
  | cons f rest ih =>
    intro idx uid
    rw [List.foldl_cons, ih, addTransFile_isSome]
    constructor
    · rintro ((h | h) | ⟨g, hg, h1, h2⟩)
      · exact Or.inl h
      · exact Or.inr ⟨f, List.mem_cons_self _ _, h⟩
      · exact Or.inr ⟨g, List.mem_cons_of_mem _ hg, h1, h2⟩
    · rintro (h | ⟨g, hg, h1, h2⟩)
      · exact Or.inl (Or.inl h)
      · rcases List.mem_cons.mp hg with rfl | hg'
        · exact Or.inl (Or.inr ⟨h1, h2⟩)
        · exact Or.inr ⟨g, hg', h1, h2⟩

/-- Key presence after the whole translation walk. -/
theorem transTreesFold_isSome (trees : List (String × List FoundFile)) :
    ∀ (idx : List (String × SuttaEntry)) (uid : String),
      (getVal (trees.foldl
          (fun acc p => p.2.foldl (addTransFile p.1) acc) idx) uid).isSome
          = true ↔
        ((getVal idx uid).isSome = true ∨ transDiscovered trees uid) := by
  induction trees with
  | nil =>
    intro idx uid
    simp [transDiscovered]
  | cons q rest ih =>
    intro idx uid
    rw [List.foldl_cons, ih, transFileFold_isSome]
    have hsplit : transDiscovered (q :: rest) uid ↔
        ((∃ f ∈ q.2, jsIncludes f.base transTag = true ∧
          transUid f.base = uid) ∨ transDiscovered rest uid) := by
      unfold transDiscovered
      constructor
      · rintro ⟨p, hp, hf⟩
        rcases List.mem_cons.mp hp with rfl | hp'
        · exact Or.inl hf
        · exact Or.inr ⟨p, hp', hf⟩
      · rintro (hf | ⟨p, hp', hf⟩)
        · exact ⟨q, List.mem_cons_self _ _, hf⟩
        · exact ⟨p, List.mem_cons_of_mem _ hp', hf⟩
    rw [hsplit]
    exact or_assoc

/-- The translation walk only adds keys, never removes them. -/
theorem addTransFile_mono (a : String) (idx : List (String × SuttaEntry))
    (f : FoundFile) (uid : String)
    (h : (getVal idx uid).isSome = true) :
    (getVal (addTransFile a idx f) uid).isSome = true :=
  (addTransFile_isSome a idx f uid).mpr (Or.inl h)

/-- One translation-walk step either keeps an entry's root or creates the
entry fresh with a null root. -/
theorem addTransFile_root_pres (a : String) (idx : List (String × SuttaEntry))
    (f : FoundFile) (uid : String) (e : SuttaEntry)
    (h : getVal (addTransFile a idx f) uid = some e) :
    (∃ e0, getVal idx uid = some e0 ∧ e0.root = e.root) ∨
    (getVal idx uid = none ∧ e.root = none) := by
  by_cases hj : jsIncludes f.base transTag = true
  · simp only [addTransFile] at h
    rw [if_pos hj, getVal_updateVal] at h
    by_cases hu : transUid f.base = uid
    · rw [if_pos hu] at h
      split at h
      next x heq =>
        rcases Option.map_eq_some'.mp h with ⟨e1, he1, hge⟩
        left
        refine ⟨e1, he1, ?_⟩
        rw [← hge]
      next heq =>
        rcases Option.map_eq_some'.mp h with ⟨e1, he1, hge⟩
        rcases getVal_append_single_cases he1 with hin | ⟨hnone, _, hev⟩
        · left
          refine ⟨e1, hin, ?_⟩
          rw [← hge]
        · right
          refine ⟨hnone, ?_⟩
          rw [← hge, hev]
    · rw [if_neg hu] at h
      split at h
      next x heq => exact Or.inl ⟨e, h, rfl⟩
      next heq =>
        rcases getVal_append_single_cases h with hin | ⟨_, hk, _⟩
        · exact Or.inl ⟨e, hin, rfl⟩
        · exact absurd hk hu
  · simp only [addTransFile] at h
    rw [if_neg hj] at h
    exact Or.inl ⟨e, h, rfl⟩

/-- Root preservation over one author directory's walk. -/
theorem transFileFold_root_pres (a : String) (files : List FoundFile) :
    ∀ (idx : List (String × SuttaEntry)) (uid : String) (e : SuttaEntry),
      getVal (files.foldl (addTransFile a) idx) uid = some e →
      (∃ e0, getVal idx uid = some e0 ∧ e0.root = e.root) ∨
      (getVal idx uid = none ∧ e.root = none) := by
  induction files with
  | nil => intro idx uid e h; exact Or.inl ⟨e, h, rfl⟩
  | cons f rest ih =>
    intro idx uid e h
    rw [List.foldl_cons] at h
    rcases ih _ uid e h with ⟨e1, he1, hr⟩ | ⟨hn, hr⟩
    · rcases addTransFile_root_pres a idx f uid e1 he1 with
        ⟨e0, he0, hr0⟩ | ⟨hn0, hr0⟩
      · exact Or.inl ⟨e0, he0, hr0.trans hr⟩
      · right
        refine ⟨hn0, ?_⟩
        rw [← hr]
        exact hr0
    · right
      refine ⟨?_, hr⟩
      cases hg : getVal idx uid with
      | none => rfl
      | some x =>
        have hmono := addTransFile_mono a idx f uid (by simp [hg])
        rw [hn] at hmono
        simp at hmono

/-- Root preservation over the whole translation walk. -/
theorem transTreesFold_root_pres (trees : List (String × List FoundFile)) :
    ∀ (idx : List (String × SuttaEntry)) (uid : String) (e : SuttaEntry),
      getVal (trees.foldl
        (fun acc p => p.2.foldl (addTransFile p.1) acc) idx) uid = some e →
      (∃ e0, getVal idx uid = some e0 ∧ e0.root = e.root) ∨
      (getVal idx uid = none ∧ e.root = none) := by
  induction trees with
  | nil => intro idx uid e h; exact Or.inl ⟨e, h, rfl⟩
  | cons q rest ih =>
    intro idx uid e h
    rw [List.foldl_cons] at h
    rcases ih _ uid e h with ⟨e1, he1, hr⟩ | ⟨hn, hr⟩
    · rcases transFileFold_root_pres q.1 q.2 idx uid e1 he1 with
        ⟨e0, he0, hr0⟩ | ⟨hn0, hr0⟩
      · exact Or.inl ⟨e0, he0, hr0.trans hr⟩
      · right
        refine ⟨hn0, ?_⟩
        rw [← hr]
        exact hr0
    · right
      refine ⟨?_, hr⟩
      cases hg : getVal idx uid with
      | none => rfl
      | some x =>
        have hmono := (transFileFold_isSome q.1 q.2 idx uid).mpr
          (Or.inl (by simp [hg]))
        rw [hn] at hmono
        simp at hmono

/-- One translation-walk step preserves "root present or some
translation". -/
theorem addTransFile_good (a : String) (idx : List (String × SuttaEntry))
    (f : FoundFile)
    (h : ∀ uid e, getVal idx uid = some e →
      e.root.isSome = true ∨ e.translations ≠ [])
    (uid : String) (e : SuttaEntry)
    (he : getVal (addTransFile a idx f) uid = some e) :
    e.root.isSome = true ∨ e.translations ≠ [] := by
  by_cases hj : jsIncludes f.base transTag = true
  · simp only [addTransFile] at he
    rw [if_pos hj, getVal_updateVal] at he
    by_cases hu : transUid f.base = uid
    · rw [if_pos hu] at he
      split at he
      next x heq =>
        rcases Option.map_eq_some'.mp he with ⟨e1, he1, hge⟩
        right
        rw [← hge]
        exact setVal_ne_nil _ _ _
      next heq =>
        rcases Option.map_eq_some'.mp he with ⟨e1, he1, hge⟩
        right
        rw [← hge]
        exact setVal_ne_nil _ _ _
    · rw [if_neg hu] at he
      split at he
      next x heq => exact h uid e he
      next heq =>
        rcases getVal_append_single_cases he with hin | ⟨_, hk, _⟩
        · exact h uid e hin
        · exact absurd hk hu
  · simp only [addTransFile] at he
    rw [if_neg hj] at he
    exact h uid e he

/-- "Root present or some translation" over one author directory. -/
theorem transFileFold_good (a : String) (files : List FoundFile) :
    ∀ (idx : List (String × SuttaEntry)),
      (∀ uid e, getVal idx uid = some e →
        e.root.isSome = true ∨ e.translations ≠ []) →
      ∀ uid e, getVal (files.foldl (addTransFile a) idx) uid = some e →
        e.root.isSome = true ∨ e.translations ≠ [] := by
  induction files with
  | nil => intro idx h; exact h
  | cons f rest ih =>
    intro idx h
    rw [List.foldl_cons]
    exact ih _ (addTransFile_good a idx f h)

/-- "Root present or some translation" over the whole translation walk. -/
theorem transTreesFold_good (trees : List (String × List FoundFile)) :
    ∀ (idx : List (String × SuttaEntry)),
      (∀ uid e, getVal idx uid = some e →
        e.root.isSome = true ∨ e.translations ≠ []) →
      ∀ uid e, getVal (trees.foldl
          (fun acc p => p.2.foldl (addTransFile p.1) acc) idx) uid = some e →
        e.root.isSome = true ∨ e.translations ≠ [] := by
  induction trees with
  | nil => intro idx h; exact h
  | cons q rest ih =>
    intro idx h
    rw [List.foldl_cons]
    exact ih _ (transFileFold_good q.1 q.2 idx h)

/-- Provenance of translation pairs over one translation-walk step: any
pair of any entry either was allowed before or is the processed file's
pair. -/
theorem addTransFile_prov (a : String) (idx : List (String × SuttaEntry))
    (f : FoundFile) {Q : String × String → Prop}
    (h : ∀ uid e ap, getVal idx uid = some e → ap ∈ e.translations → Q ap)
    (uid : String) (e : SuttaEntry) (ap : String × String)
    (he : getVal (addTransFile a idx f) uid = some e)
    (hap : ap ∈ e.translations) :
    Q ap ∨ (jsIncludes f.base transTag = true ∧ ap.1 = a
      ∧ ap.2 = relPath f) := by
  by_cases hj : jsIncludes f.base transTag = true
  · simp only [addTransFile] at he
    rw [if_pos hj, getVal_updateVal] at he
    by_cases hu : transUid f.base = uid
    · rw [if_pos hu] at he
      split at he
      next x heq =>
        rcases Option.map_eq_some'.mp he with ⟨e1, he1, hge⟩
        rw [← hge] at hap
        rcases mem_setVal hap with hin | hev
        · exact Or.inl (h uid e1 ap he1 hin)
        · right
          exact ⟨hj, by rw [hev], by rw [hev]⟩
      next heq =>
        rcases Option.map_eq_some'.mp he with ⟨e1, he1, hge⟩
        rcases getVal_append_single_cases he1 with hin | ⟨hnone, _, hev1⟩
        · rw [← hge] at hap
          rcases mem_setVal hap with hin2 | hev
          · exact Or.inl (h uid e1 ap hin hin2)
          · right
            exact ⟨hj, by rw [hev], by rw [hev]⟩
        · subst hev1
          rw [← hge] at hap
          rcases mem_setVal hap with hin2 | hev
          · simp at hin2
          · right
            exact ⟨hj, by rw [hev], by rw [hev]⟩
    · rw [if_neg hu] at he
      split at he
      next x heq => exact Or.inl (h uid e ap he hap)
      next heq =>
        rcases getVal_append_single_cases he with hin | ⟨_, hk, _⟩
        · exact Or.inl (h uid e ap hin hap)
        · exact absurd hk hu
  · simp only [addTransFile] at he
    rw [if_neg hj] at he
    exact Or.inl (h uid e ap he hap)

/-- Provenance of translation pairs over one author directory's walk. -/
theorem transFileFold_prov (a : String) (files : List FoundFile) :
    ∀ (idx : List (String × SuttaEntry)) {Q : String × String → Prop},
      (∀ uid e ap, getVal idx uid = some e → ap ∈ e.translations → Q ap) →
      ∀ uid e ap, getVal (files.foldl (addTransFile a) idx) uid = some e →
        ap ∈ e.translations →
        Q ap ∨ ∃ f ∈ files, jsIncludes f.base transTag = true ∧
          ap.1 = a ∧ ap.2 = relPath f := by
  induction files with
  | nil =>
    intro idx Q h uid e ap he hap
    exact Or.inl (h uid e ap he hap)
  | cons f rest ih =>
    intro idx Q h uid e ap he hap
    rw [List.foldl_cons] at he
    have h' : ∀ uid e ap, getVal (addTransFile a idx f) uid = some e →
        ap ∈ e.translations →
        (Q ap ∨ (jsIncludes f.base transTag = true ∧ ap.1 = a
          ∧ ap.2 = relPath f)) :=
      fun uid e ap he hap => addTransFile_prov a idx f h uid e ap he hap
    rcases ih _ h' uid e ap he hap with (hq | hf) | ⟨g, hg, hgf⟩
    · exact Or.inl hq
    · exact Or.inr ⟨f, List.mem_cons_self _ _, hf⟩
    · exact Or.inr ⟨g, List.mem_cons_of_mem _ hg, hgf⟩

/-- Provenance of translation pairs over the whole translation walk. -/
theorem transTreesFold_prov (trees : List (String × List FoundFile)) :
    ∀ (idx : List (String × SuttaEntry)) {Q : String × String → Prop},
      (∀ uid e ap, getVal idx uid = some e → ap ∈ e.translations → Q ap) →
      ∀ uid e ap, getVal (trees.foldl
          (fun acc p => p.2.foldl (addTransFile p.1) acc) idx) uid = some e →
        ap ∈ e.translations →
        Q ap ∨ ∃ q ∈ trees, ∃ f ∈ q.2, jsIncludes f.base transTag = true ∧
          ap.1 = q.1 ∧ ap.2 = relPath f := by
  induction trees with
  | nil =>
    intro idx Q h uid e ap he hap
    exact Or.inl (h uid e ap he hap)
  | cons q rest ih =>
    intro idx Q h uid e ap he hap
    rw [List.foldl_cons] at he
    have h' : ∀ uid e ap,
        getVal (q.2.foldl (addTransFile q.1) idx) uid = some e →
        ap ∈ e.translations →
        (Q ap ∨ ∃ f ∈ q.2, jsIncludes f.base transTag = true ∧
          ap.1 = q.1 ∧ ap.2 = relPath f) :=
      fun uid e ap he hap => transFileFold_prov q.1 q.2 idx h uid e ap he hap
    rcases ih _ h' uid e ap he hap with (hq | hf) | ⟨r, hr, hrf⟩
    · exact Or.inl hq
    · exact Or.inr ⟨q, List.mem_cons_self _ _, hf⟩
    · exact Or.inr ⟨r, List.mem_cons_of_mem _ hr, hrf⟩

/-! ## Claim C3: entry existence invariant -/

/-- C3: the built index has an entry for an identifier iff a root file or a
translation file for it was discovered; a translation with no discovered
root yields an entry with a null root; and no persisted entry lacks both a
root and translations. -/
theorem index_entry_iff_discovered (rootFiles : List FoundFile)
    (authorTrees : List (String × List FoundFile)) :
    (∀ uid, (getVal (buildIndex rootFiles authorTrees) uid).isSome = true ↔
      (rootDiscovered rootFiles uid ∨ transDiscovered authorTrees uid)) ∧
    (∀ uid, ¬rootDiscovered rootFiles uid → transDiscovered authorTrees uid →
      ∃ e, getVal (buildIndex rootFiles authorTrees) uid = some e ∧
        e.root = none) ∧
    (∀ uid e, getVal (buildIndex rootFiles authorTrees) uid = some e →
      e.root.isSome = true ∨ e.translations ≠ []) := by
  have hbuild : buildIndex rootFiles authorTrees
      = authorTrees.foldl (fun acc p => p.2.foldl (addTransFile p.1) acc)
        (rootFiles.foldl addRootFile []) := rfl
  refine ⟨?_, ?_, ?_⟩
  · intro uid
    rw [hbuild, transTreesFold_isSome, rootFold_getVal_isSome]
    simp [getVal]
  · intro uid hnr htd
    have hkey : (getVal (buildIndex rootFiles authorTrees) uid).isSome
        = true := by
      rw [hbuild, transTreesFold_isSome]
      exact Or.inr htd
    rcases Option.isSome_iff_exists.mp hkey with ⟨e, he⟩
    refine ⟨e, he, ?_⟩
    rw [hbuild] at he
    rcases transTreesFold_root_pres authorTrees _ uid e he with
      ⟨e0, he0, hr⟩ | ⟨_, hr⟩
    · exfalso
      apply hnr
      have hk1 : (getVal (rootFiles.foldl addRootFile []) uid).isSome
          = true := by simp [he0]
      rcases (rootFold_getVal_isSome rootFiles [] uid).mp hk1 with h | h
      · simp [getVal] at h
      · exact h
    · exact hr
  · intro uid e he
    rw [hbuild] at he
    refine transTreesFold_good authorTrees _ ?_ uid e he
    intro uid' e' he'
    exact Or.inl (rootFold_shape rootFiles []
      (by intro u e0 h0; simp [getVal] at h0) uid' e' he').1

/-- Witness for C3: a translation-only identifier gets an entry with a null
root. -/
theorem index_entry_iff_discovered_witness :
    ∃ e, getVal (buildIndex c3roots c3trees) "dn2" = some e ∧
      e.root = none :=
  (index_entry_iff_discovered c3roots c3trees).2.1 "dn2"
    (by unfold rootDiscovered; decide) (by unfold transDiscovered; decide)

/-! ## Claim C9: duplicate root identifiers -/

/-- C9 counterexample: with two discovered root files for the identifier
`x`, the stored root path is the FIRST file's path, and it differs from the
later file's path — refuting last-write-wins. -/
theorem root_duplicate_counterexample :
    getVal (buildIndex c9files []) "x"
        = some { root := some "a/x_root-pli-ms.json", translations := [] } ∧
    relPath ⟨["b"], "x_root-pli-ms.json"⟩ = "b/x_root-pli-ms.json" ∧
    ("a/x_root-pli-ms.json" : String) ≠ "b/x_root-pli-ms.json" := by
  decide

/-- C9 amended: when duplicate root files map to the same identifier, the
one encountered EARLIER in the walk determines the entry's root path
(first-write-wins; `if (!index[uid])` ignores later duplicates). -/
theorem root_walk_first_write_wins (rootFiles : List FoundFile)
    (authorTrees : List (String × List FoundFile)) (uid : String)
    (h : rootDiscovered rootFiles uid) :
    ∃ f, firstRootFile rootFiles uid = some f ∧
      ∃ e, getVal (buildIndex rootFiles authorTrees) uid = some e ∧
        e.root = some (relPath f) := by
  have hbuild : buildIndex rootFiles authorTrees
      = authorTrees.foldl (fun acc p => p.2.foldl (addTransFile p.1) acc)
        (rootFiles.foldl addRootFile []) := rfl
  have hfs : (firstRootFile rootFiles uid).isSome = true := by
    rcases h with ⟨f, hf, h1, h2⟩
    unfold firstRootFile
    rw [List.find?_isSome]
    exact ⟨f, hf, by simp [h1, h2]⟩
  rcases Option.isSome_iff_exists.mp hfs with ⟨f, hf⟩
  refine ⟨f, hf, ?_⟩
  have h1 : getVal (rootFiles.foldl addRootFile []) uid
      = some { root := some (relPath f), translations := [] } := by
    rw [rootFold_first rootFiles [] uid (by simp [getVal]), hf]
    rfl
  have hkey : (getVal (buildIndex rootFiles authorTrees) uid).isSome
      = true := by
    rw [hbuild, transTreesFold_isSome]
    exact Or.inl (by simp [h1])
  rcases Option.isSome_iff_exists.mp hkey with ⟨e, he⟩
  refine ⟨e, he, ?_⟩
  rw [hbuild] at he
  rcases transTreesFold_root_pres authorTrees _ uid e he with
    ⟨e0, he0, hr⟩ | ⟨hn, _⟩
  · rw [h1] at he0
    injection he0 with he0'
    rw [← hr, ← he0']
  · rw [h1] at hn
    exact absurd hn (by simp)

/-- Witness for the amended C9 at the concrete duplicate walk. -/
theorem root_walk_first_write_wins_witness :
    ∃ f, firstRootFile c9files "x" = some f ∧
      ∃ e, getVal (buildIndex c9files []) "x" = some e ∧
        e.root = some (relPath f) :=
  root_walk_first_write_wins c9files [] "x" (by unfold rootDiscovered; decide)

/-! ## Claim C10: only English translations indexed and served -/

/-- The translation facet's candidate file sits under
`translation/en/<author>/`. -/
theorem transCandidate_shape (a rel p : String)
    (hc : transCandidate (some a) (some rel) = some p)
    (ha : a ≠ ".") (hr : rel ≠ ".") :
    p = "translation/en" ++ "/" ++ a ++ "/" ++ rel := by
  simp only [transCandidate] at hc
  split_ifs at hc with hg
  · simp only [Bool.and_eq_true, bne_iff_ne] at hg
    injection hc with hc'
    rw [← hc']
    have h1 : (("translation/en" != "") && ("translation/en" != ".")) = true := by
      decide
    have h2 : ((a != "") && (a != ".")) = true := by
      simp only [Bool.and_eq_true, bne_iff_ne]
      exact ⟨hg.1, ha⟩
    have h3 : ((rel != "") && (rel != ".")) = true := by
      simp only [Bool.and_eq_true, bne_iff_ne]
      exact ⟨hg.2, hr⟩
    simp only [joinParts, List.filter_cons, List.filter_nil, h1, h2, h3,
      if_true, joinRest]
    simp [String.append_assoc]

/-- The comment facet's candidate file sits under `comment/en/<author>/`. -/
theorem commentCandidate_shape (a rel p : String)
    (hc : commentCandidate (some a) (some rel) = some p)
    (ha : a ≠ ".")
    (h1 : jsReplaceFirst (basename rel) "translation-" "comment-" ≠ "")
    (h2 : jsReplaceFirst (basename rel) "translation-" "comment-" ≠ ".") :
    ∃ c, p = "comment/en" ++ "/" ++ a ++ "/" ++ c := by
  simp only [commentCandidate] at hc
  split_ifs at hc with hg
  · simp only [Bool.and_eq_true, bne_iff_ne] at hg
    injection hc with hc'
    have hpc : (("comment/en" != "") && ("comment/en" != ".")) = true := by
      decide
    have hpa : ((a != "") && (a != ".")) = true := by
      simp only [Bool.and_eq_true, bne_iff_ne]
      exact ⟨hg.1, ha⟩
    have hpf : ((jsReplaceFirst (basename rel) "translation-" "comment-" != "")
        && (jsReplaceFirst (basename rel) "translation-" "comment-" != "."))
        = true := by
      simp only [Bool.and_eq_true, bne_iff_ne]
      exact ⟨h1, h2⟩
    by_cases hd : ((dirname rel != "") && (dirname rel != ".")) = true
    · refine ⟨dirname rel ++ "/"
        ++ jsReplaceFirst (basename rel) "translation-" "comment-", ?_⟩
      rw [← hc']
      simp only [joinParts, List.filter_cons, List.filter_nil, hpc, hpa, hd,
        hpf, if_true, joinRest]
      simp [String.append_assoc]
    · have hd' : ((dirname rel != "") && (dirname rel != ".")) = false := by
        revert hd
        cases (dirname rel != "") && (dirname rel != ".") <;> simp
      refine ⟨jsReplaceFirst (basename rel) "translation-" "comment-", ?_⟩
      rw [← hc']
      simp only [joinParts, List.filter_cons, List.filter_nil, hpc, hpa, hd',
        hpf, if_true, Bool.false_eq_true, if_false, joinRest]
      simp [String.append_assoc]

/-- C10: a pair enters an entry's translations map only from a discovered
file whose name contains `_translation-en-` (stored under the author whose
directory was walked), and the translation and comment facets' candidate
files live exclusively under the `translation/en/<author>/` and
`comment/en/<author>/` subtrees. -/
theorem translations_are_english_only :
    (∀ (rootFiles : List FoundFile)
        (authorTrees : List (String × List FoundFile)) uid e ap,
        getVal (buildIndex rootFiles authorTrees) uid = some e →
        ap ∈ e.translations →
        ∃ q ∈ authorTrees, ∃ f ∈ q.2, jsIncludes f.base transTag = true ∧
          ap.1 = q.1 ∧ ap.2 = relPath f) ∧
    (∀ a rel p, transCandidate (some a) (some rel) = some p → a ≠ "." →
        rel ≠ "." → p = "translation/en" ++ "/" ++ a ++ "/" ++ rel) ∧
    (∀ a rel p, commentCandidate (some a) (some rel) = some p → a ≠ "." →
        jsReplaceFirst (basename rel) "translation-" "comment-" ≠ "" →
        jsReplaceFirst (basename rel) "translation-" "comment-" ≠ "." →
        ∃ c, p = "comment/en" ++ "/" ++ a ++ "/" ++ c) := by
  refine ⟨?_, transCandidate_shape, commentCandidate_shape⟩
  intro rootFiles authorTrees uid e ap he hap
  have hQ : ∀ uid e ap,
      getVal (rootFiles.foldl addRootFile []) uid = some e →
      ap ∈ e.translations → False := by
    intro u e' ap' he' hap'
    have hsh := (rootFold_shape rootFiles []
      (by intro u0 e0 h0; simp [getVal] at h0) u e' he').2
    rw [hsh] at hap'
    simp at hap'
  rcases transTreesFold_prov authorTrees
    (rootFiles.foldl addRootFile []) hQ uid e ap he hap with hF | hgood
  · exact hF.elim
  · exact hgood

/-- Witness for C10 at a concrete walk and concrete candidate paths. -/
theorem translations_are_english_only_witness :
    (∃ q ∈ c10trees, ∃ f ∈ q.2, jsIncludes f.base transTag = true ∧
        ("sujato", "sutta/dn/dn1_translation-en-sujato.json").1 = q.1 ∧
        ("sujato", "sutta/dn/dn1_translation-en-sujato.json").2 = relPath f) ∧
    (joinParts ["translation/en", "sujato",
        "sutta/dn/dn1_translation-en-sujato.json"]
      = "translation/en" ++ "/" ++ "sujato" ++ "/"
        ++ "sutta/dn/dn1_translation-en-sujato.json") ∧
    (∃ c, joinParts ["comment/en", "sujato",
        dirname "sutta/dn/dn1_translation-en-sujato.json",
        jsReplaceFirst (basename "sutta/dn/dn1_translation-en-sujato.json")
          "translation-" "comment-"]
      = "comment/en" ++ "/" ++ "sujato" ++ "/" ++ c) := by
  refine ⟨?_, ?_, ?_⟩
  · exact translations_are_english_only.1 [] c10trees "dn1"
      { root := none,
        translations := [("sujato", "sutta/dn/dn1_translation-en-sujato.json")] }
      ("sujato", "sutta/dn/dn1_translation-en-sujato.json")
      (by decide) (by decide)
  · exact translations_are_english_only.2.1 "sujato"
      "sutta/dn/dn1_translation-en-sujato.json" _ (by decide) (by decide)
      (by decide)
  · exact translations_are_english_only.2.2 "sujato"
      "sutta/dn/dn1_translation-en-sujato.json" _ (by decide) (by decide)
      (by decide) (by decide)

end SuttaSpec
